import Mathlib

/-!
Verification of the cancellable file I/O adapter of the `fs` package.

The embedding models the retry loops of `fio.Read` and `fio.Write`
(src/fs.go, lines 206-271 of the current revision), the pass-through
operations `fio.Seek`, `fio.ReadAt`, `fio.Close`, the `Pipe` constructor,
and the interrupt-scope machinery of src/interrupt.go and its historical
revisions (src/unnamed/part_001, src/unnamed/part_002, src/interrupt_darwin.go).

The kernel and the Go `os` layer are modelled as an oracle: each raw
syscall attempt is one `RawStep` holding the byte count the call returned,
the Go error value it returned (if any), and the result of the
`ctx.Done()` poll the loop performs right after that attempt.  The adapter
logic itself is translated line by line from the source.
-/

set_option autoImplicit false

namespace Fs

/-- Error causes distinguished by the adapter's classification code:
`syscall.EAGAIN`, `syscall.EINTR`, `context.Canceled`, and any other
cause (an errno such as EACCES or EIO, coded by a number). -/
inductive Errno where
  | EAGAIN
  | EINTR
  | canceled
  | other (code : Nat)
  deriving DecidableEq, Repr

/-- A Go error value as the adapter sees it: either an `os.PathError`
carrying an operation name, a path and a cause, or a non-PathError error
such as `io.EOF` (coded by a number). -/
inductive GoError where
  | pathError (op : String) (path : String) (err : Errno)
  | nonPath (code : Nat)
  deriving DecidableEq, Repr

/-- The in-place rewriting both loops perform on an `os.PathError` whose
cause is `syscall.EINTR`: `perr.Err = context.Canceled`
(src/fs.go lines 217-219 and 249-251).  Non-PathError errors and other
causes are left untouched. -/
def rewriteEINTR : GoError → GoError
  | .pathError op path e => .pathError op path (if e = .EINTR then .canceled else e)
  | .nonPath code => .nonPath code

/-- The `eagain` test of both loops: the error is an `os.PathError` whose
cause is `syscall.EAGAIN` (src/fs.go lines 215-216 and 247-248). -/
def isEAGAIN : GoError → Bool
  | .pathError _ _ e => e = .EAGAIN
  | .nonPath _ => false

/-- The cancellation error both loops build when they observe
`ctx.Done()`: `os.PathError\x7bOp: "write", Path: name, Err: context.Canceled\x7d`
(src/fs.go lines 227-231 and 262-266; note that `fio.Read` also hard-codes
the operation name "write"). -/
def cancelErr (op name : String) : GoError := .pathError op name .canceled

/-- One raw syscall attempt as the loop experiences it: `n` is the byte
count returned by `fio.f.Read` or `fio.f.Write`, `err` the Go error it
returned, and `ctxDone` whether the `select` on `fio.ctx.Done()` performed
right after this attempt sees the context completed. -/
structure RawStep where
  n : Nat
  err : Option GoError
  ctxDone : Bool
  deriving DecidableEq, Repr

/-- Shallow embedding of the `fio.Read` retry loop (src/fs.go lines
238-271).  `name` is `fio.f.Name()`.  The result is `none` when the given
oracle trace runs out before the loop returns (the call is still blocked),
and `some (n, err)` for the value the Go method returns.

Go source of one iteration:
  n, err := fio.f.Read(data)
  if err != nil \x7b
    eagain := err is PathError with EAGAIN
    if err is PathError with EINTR: err.Err = context.Canceled
    if !eagain \x7b return n, err \x7d
  \x7d
  if n > 0 \x7b return n, err \x7d
  select ctx.Done: return n, PathError\x7b"write", name, Canceled\x7d; default: loop. -/
def fioRead (name : String) : List RawStep → Option (Nat × Option GoError)
  | [] => none
  | s :: rest =>
    match s.err with
    | some e =>
      if isEAGAIN e then
        if 0 < s.n then some (s.n, some e)
        else if s.ctxDone then some (s.n, some (cancelErr "write" name))
        else fioRead name rest
      else some (s.n, some (rewriteEINTR e))
    | none =>
      if 0 < s.n then some (s.n, none)
      else if s.ctxDone then some (s.n, some (cancelErr "write" name))
      else fioRead name rest

/-- Shallow embedding of the `fio.Write` retry loop (src/fs.go lines
206-236).  `p` is the remaining length of the buffer (`len(p)`), `n` the
cumulative count written so far.  The result is `none` when the oracle
trace runs out before the loop returns.

Go source:
  n := 0
  for len(p) > 0 \x7b
    wn, err := fio.f.Write(p); n += wn; p = p[wn:]
    if err != nil \x7b
      eagain := err is PathError with EAGAIN
      if err is PathError with EINTR: err.Err = context.Canceled
      if !eagain \x7b return n, err \x7d
    \x7d
    select ctx.Done: return n, PathError\x7b"write", name, Canceled\x7d; default:
  \x7d
  return n, nil -/
def fioWriteLoop (name : String) : List RawStep → Nat → Nat → Option (Nat × Option GoError)
  | _, 0, n => some (n, none)
  | [], _, _ => none
  | s :: rest, p, n =>
    match s.err with
    | some e =>
      if isEAGAIN e then
        if s.ctxDone then some (n + s.n, some (cancelErr "write" name))
        else fioWriteLoop name rest (p - s.n) (n + s.n)
      else some (n + s.n, some (rewriteEINTR e))
    | none =>
      if s.ctxDone then some (n + s.n, some (cancelErr "write" name))
      else fioWriteLoop name rest (p - s.n) (n + s.n)

/-- Entry point of `fio.Write`: the loop starts with a full buffer of
`bufLen` bytes and a cumulative count of 0 (src/fs.go line 208). -/
def fioWrite (name : String) (steps : List RawStep) (bufLen : Nat) :
    Option (Nat × Option GoError) :=
  fioWriteLoop name steps bufLen 0

/-- Events of one adapter operation call: the `interrupt(ctx)` call made at
function entry opens the interrupt scope, each raw syscall attempt is one
`rawCall`, and the deferred cleanup releases the scope when the method
returns (the `defer interrupt(fio.ctx)()` line of each method). -/
inductive Event where
  | scopeOpen
  | rawCall
  | scopeRelease
  deriving DecidableEq, Repr

/-- Shallow embedding of `fio.Seek` (src/fs.go lines 201-204):
`defer interrupt(fio.ctx)()` then a single `fio.f.Seek` whose result is
returned unchanged.  The first component is the event trace of the call. -/
def fioSeek (raw : Int × Option GoError) : List Event × (Int × Option GoError) :=
  ([.scopeOpen, .rawCall, .scopeRelease], raw)

/-- Shallow embedding of `fio.ReadAt` (src/fs.go lines 273-277):
`defer interrupt(fio.ctx)()` then a single `fio.f.ReadAt` whose result is
returned unchanged. -/
def fioReadAt (raw : Nat × Option GoError) : List Event × (Nat × Option GoError) :=
  ([.scopeOpen, .rawCall, .scopeRelease], raw)

/-- Shallow embedding of `fio.Close` (src/fs.go lines 279-283):
`defer interrupt(fio.ctx)()` then a single `fio.f.Close` whose result is
returned unchanged. -/
def fioClose (raw : Option GoError) : List Event × Option GoError :=
  ([.scopeOpen, .rawCall, .scopeRelease], raw)

/-- Number of raw syscall attempts a terminating `fio.Read` call makes on
the given oracle trace; mirrors the recursion of `fioRead`. -/
def fioReadCalls (name : String) : List RawStep → Option Nat
  | [] => none
  | s :: rest =>
    match s.err with
    | some e =>
      if isEAGAIN e then
        if 0 < s.n then some 1
        else if s.ctxDone then some 1
        else (fioReadCalls name rest).map (fun k => k + 1)
      else some 1
    | none =>
      if 0 < s.n then some 1
      else if s.ctxDone then some 1
      else (fioReadCalls name rest).map (fun k => k + 1)

/-- Number of raw syscall attempts a terminating `fio.Write` call makes;
mirrors the recursion of `fioWriteLoop`. -/
def fioWriteCalls (name : String) : List RawStep → Nat → Option Nat
  | _, 0 => some 0
  | [], _ => none
  | s :: rest, p =>
    match s.err with
    | some e =>
      if isEAGAIN e then
        if s.ctxDone then some 1
        else (fioWriteCalls name rest (p - s.n)).map (fun k => k + 1)
      else some 1
    | none =>
      if s.ctxDone then some 1
      else (fioWriteCalls name rest (p - s.n)).map (fun k => k + 1)

/-- Event trace of a terminating `fio.Read` call: the scope is opened on
entry, one `rawCall` per loop iteration, and the deferred release runs at
the return. -/
def fioReadEvents (name : String) (steps : List RawStep) : Option (List Event) :=
  (fioReadCalls name steps).map
    (fun k => .scopeOpen :: (List.replicate k .rawCall ++ [.scopeRelease]))

/-- Event trace of a terminating `fio.Write` call. -/
def fioWriteEvents (name : String) (steps : List RawStep) (bufLen : Nat) :
    Option (List Event) :=
  (fioWriteCalls name steps bufLen).map
    (fun k => .scopeOpen :: (List.replicate k .rawCall ++ [.scopeRelease]))

/-- A cancellation token (a `context.Context` as the package uses it):
one-shot and observable; `doneAt t` tells whether the token has completed
by instant `t`. -/
structure CancellationToken where
  doneAt : Nat → Bool

/-- Shallow embedding of `Pipe` (src/fs.go lines 187-194): it calls
`os.Pipe()`; on error it returns the error, otherwise it wraps both
descriptors with `newFile`.  The `ctx` parameter is bound but never
consulted anywhere in the body. -/
def Pipe (ctx : CancellationToken) (osPipe : Except GoError (Nat × Nat)) :
    Except GoError (Nat × Nat) :=
  match osPipe with
  | .error e => .error e
  | .ok rw => .ok rw

/-- State of the watcher goroutine started by `interrupt` at the moment
the cleanup function sends on the completion channel: either it is still
blocked in its `select` (so it is a ready receiver on `done`), or the
token completed first, it called `threadKill` and exited (so nobody will
ever receive on `done` again). -/
inductive WatcherState where
  | selecting
  | exited
  deriving DecidableEq, Repr

/-- Go channel-send semantics for the cleanup's `done <- struct` send: a
send completes immediately if a receiver is waiting, or if the buffer has
free capacity; otherwise it blocks. -/
def sendBlocks (cap bufLen : Nat) (w : WatcherState) : Bool :=
  match w with
  | .selecting => false
  | .exited => if bufLen < cap then false else true

/-- Capacity of the completion channel `done` created by `interrupt` in
src/interrupt.go line 39: `make` with capacity 1. -/
def interruptDoneCap : Nat := 1

/-- Capacity of the completion channel `done` created by the `interrupt`
revision in src/unnamed/part_001 line 34: `make` with capacity 1. -/
def part001DoneCap : Nat := 1

/-- Capacity of the completion channel `done` created by the `interrupt`
revision in src/unnamed/part_002 line 14: `make` with no capacity
argument, i.e. an unbuffered channel. -/
def part002DoneCap : Nat := 0

/-- Observable side effects of the signal-delivery code: a `println` call,
a `log.Printf` call, or the thread-directed kill syscall itself. -/
inductive Effect where
  | printCall (msg : String)
  | logCall (msg : String)
  | sigSend
  deriving DecidableEq, Repr

/-- Shallow effect model of `mysighandler` (src/interrupt.go lines 26-29),
the handler installed for the interrupt signal: its body is
`println("mysighandler", threadID())`. -/
def mysighandler (tid : Nat) : List Effect := [.printCall "mysighandler"]

/-- Shallow effect model of `threadKill` (src/interrupt_darwin.go lines
16-24): it issues the `__pthread_kill` syscall; if the syscall reports a
nonzero errno it calls `log.Printf("threadKill error: ...")` and returns
the errno, otherwise it returns nil. -/
def threadKill (id : Nat) (errno : Nat) : List Effect × Option Nat :=
  if errno = 0 then ([.sigSend], none)
  else ([.sigSend, .logCall "threadKill error"], some errno)

/-- Effects of the watcher goroutine of `interrupt`
(src/unnamed/part_002 lines 17-24) on the path where the token completes
first: it calls `threadKill` on the sampled thread id and exits. -/
def watcherOnTokenDone (id : Nat) (errno : Nat) : List Effect :=
  (threadKill id errno).1

/-! Helper lemmas about the two retry loops. -/

theorem isEAGAIN_rewriteEINTR (e : GoError) : isEAGAIN (rewriteEINTR e) = isEAGAIN e := by
  cases e with
  | pathError op path er => cases er <;> rfl
  | nonPath c => rfl

theorem fioWriteLoop_zero_p (name : String) (steps : List RawStep) (n : Nat) :
    fioWriteLoop name steps 0 n = some (n, none) := by
  cases steps <;> rfl

theorem fioWriteLoop_cons_none_pending (name : String) (sn : Nat) (rest : List RawStep)
    (p n : Nat) (hp : p ≠ 0) :
    fioWriteLoop name (⟨sn, none, false⟩ :: rest) p n
      = fioWriteLoop name rest (p - sn) (n + sn) := by
  cases p with
  | zero => exact absurd rfl hp
  | succ q => simp [fioWriteLoop]

theorem fioWriteLoop_cons_none_done (name : String) (sn : Nat) (rest : List RawStep)
    (p n : Nat) (hp : p ≠ 0) :
    fioWriteLoop name (⟨sn, none, true⟩ :: rest) p n
      = some (n + sn, some (cancelErr "write" name)) := by
  cases p with
  | zero => exact absurd rfl hp
  | succ q => simp [fioWriteLoop]

theorem fioWriteLoop_cons_eagain_pending (name : String) (e : GoError) (sn : Nat)
    (rest : List RawStep) (p n : Nat) (hp : p ≠ 0) (he : isEAGAIN e = true) :
    fioWriteLoop name (⟨sn, some e, false⟩ :: rest) p n
      = fioWriteLoop name rest (p - sn) (n + sn) := by
  cases p with
  | zero => exact absurd rfl hp
  | succ q => simp [fioWriteLoop, he]

theorem fioWriteLoop_cons_eagain_done (name : String) (e : GoError) (sn : Nat)
    (rest : List RawStep) (p n : Nat) (hp : p ≠ 0) (he : isEAGAIN e = true) :
    fioWriteLoop name (⟨sn, some e, true⟩ :: rest) p n
      = some (n + sn, some (cancelErr "write" name)) := by
  cases p with
  | zero => exact absurd rfl hp
  | succ q => simp [fioWriteLoop, he]

theorem fioWriteLoop_cons_noneagain (name : String) (e : GoError) (sn : Nat) (b : Bool)
    (rest : List RawStep) (p n : Nat) (hp : p ≠ 0) (he : isEAGAIN e = false) :
    fioWriteLoop name (⟨sn, some e, b⟩ :: rest) p n
      = some (n + sn, some (rewriteEINTR e)) := by
  cases p with
  | zero => exact absurd rfl hp
  | succ q => simp [fioWriteLoop, he]

theorem fioRead_cons_eagain_pending (name : String) (e : GoError) (rest : List RawStep)
    (he : isEAGAIN e = true) :
    fioRead name (⟨0, some e, false⟩ :: rest) = fioRead name rest := by
  simp [fioRead, he]

theorem fioRead_cons_eagain_done (name : String) (e : GoError) (rest : List RawStep)
    (he : isEAGAIN e = true) :
    fioRead name (⟨0, some e, true⟩ :: rest)
      = some (0, some (cancelErr "write" name)) := by
  simp [fioRead, he]

theorem fioRead_cons_noneagain (name : String) (e : GoError) (sn : Nat) (b : Bool)
    (rest : List RawStep) (he : isEAGAIN e = false) :
    fioRead name (⟨sn, some e, b⟩ :: rest) = some (sn, some (rewriteEINTR e)) := by
  simp [fioRead, he]

theorem fioRead_cons_zero_pending (name : String) (rest : List RawStep) :
    fioRead name (⟨0, none, false⟩ :: rest) = fioRead name rest := by
  simp [fioRead]

theorem fioRead_cons_zero_done (name : String) (rest : List RawStep) :
    fioRead name (⟨0, none, true⟩ :: rest)
      = some (0, some (cancelErr "write" name)) := by
  simp [fioRead]

theorem fioRead_cons_success (name : String) (sn : Nat) (b : Bool) (rest : List RawStep)
    (hn : 0 < sn) :
    fioRead name (⟨sn, none, b⟩ :: rest) = some (sn, none) := by
  simp [fioRead, hn]

theorem fioRead_pos_of_none (name : String) :
    ∀ (steps : List RawStep) (n : Nat), fioRead name steps = some (n, none) → 0 < n := by
  intro steps
  induction steps with
  | nil => intro n h; simp [fioRead] at h
  | cons s rest ih =>
    intro n h
    obtain ⟨sn, serr, sdone⟩ := s
    cases serr with
    | none =>
      by_cases hn : 0 < sn
      · rw [fioRead_cons_success name sn sdone rest hn] at h
        obtain ⟨h1, _⟩ := Prod.mk.injEq .. ▸ Option.some.injEq .. ▸ h
        omega
      · have hsn : sn = 0 := by omega
        subst hsn
        cases sdone with
        | true => rw [fioRead_cons_zero_done] at h; simp [cancelErr] at h
        | false => rw [fioRead_cons_zero_pending] at h; exact ih n h
    | some e0 =>
      by_cases he : isEAGAIN e0 = true
      · by_cases hn : 0 < sn
        · simp [fioRead, he, hn] at h
        · have hsn : sn = 0 := by omega
          subst hsn
          cases sdone with
          | true => rw [fioRead_cons_eagain_done name e0 rest he] at h; simp [cancelErr] at h
          | false => rw [fioRead_cons_eagain_pending name e0 rest he] at h; exact ih n h
      · rw [fioRead_cons_noneagain name e0 sn sdone rest (by simpa using he)] at h
        simp at h

theorem fioRead_surfaced_not_eagain (name : String) :
    ∀ (steps : List RawStep) (n : Nat) (e : GoError),
      (∀ s ∈ steps, ∀ e0, s.err = some e0 → isEAGAIN e0 = true → s.n = 0) →
      fioRead name steps = some (n, some e) → isEAGAIN e = false := by
  intro steps
  induction steps with
  | nil => intro n e _ h; simp [fioRead] at h
  | cons s rest ih =>
    intro n e hsteps h
    obtain ⟨sn, serr, sdone⟩ := s
    cases serr with
    | none =>
      by_cases hn : 0 < sn
      · rw [fioRead_cons_success name sn sdone rest hn] at h; simp at h
      · have hsn : sn = 0 := by omega
        subst hsn
        cases sdone with
        | true =>
          rw [fioRead_cons_zero_done] at h
          obtain ⟨_, h2⟩ := Prod.mk.injEq .. ▸ Option.some.injEq .. ▸ h
          obtain he := Option.some.injEq .. ▸ h2
          rw [← he]; rfl
        | false =>
          rw [fioRead_cons_zero_pending] at h
          exact ih n e (fun s hs => hsteps s (List.mem_cons_of_mem _ hs)) h
    | some e0 =>
      by_cases he : isEAGAIN e0 = true
      · have hzero : sn = 0 :=
          hsteps ⟨sn, some e0, sdone⟩ (List.mem_cons_self _ _) e0 rfl he
        subst hzero
        cases sdone with
        | true =>
          rw [fioRead_cons_eagain_done name e0 rest he] at h
          obtain ⟨_, h2⟩ := Prod.mk.injEq .. ▸ Option.some.injEq .. ▸ h
          obtain he2 := Option.some.injEq .. ▸ h2
          rw [← he2]; rfl
        | false =>
          rw [fioRead_cons_eagain_pending name e0 rest he] at h
          exact ih n e (fun s hs => hsteps s (List.mem_cons_of_mem _ hs)) h
      · rw [fioRead_cons_noneagain name e0 sn sdone rest (by simpa using he)] at h
        obtain ⟨_, h2⟩ := Prod.mk.injEq .. ▸ Option.some.injEq .. ▸ h
        obtain he2 := Option.some.injEq .. ▸ h2
        rw [← he2, isEAGAIN_rewriteEINTR]
        simpa using he

theorem fioWriteLoop_surfaced_not_eagain (name : String) :
    ∀ (steps : List RawStep) (p n0 r : Nat) (e : GoError),
      fioWriteLoop name steps p n0 = some (r, some e) → isEAGAIN e = false := by
  intro steps
  induction steps with
  | nil =>
    intro p n0 r e h
    cases p with
    | zero => rw [fioWriteLoop_zero_p] at h; simp at h
    | succ q => simp [fioWriteLoop] at h
  | cons s rest ih =>
    intro p n0 r e h
    cases p with
    | zero => rw [fioWriteLoop_zero_p] at h; simp at h
    | succ q =>
      obtain ⟨sn, serr, sdone⟩ := s
      cases serr with
      | none =>
        cases sdone with
        | true =>
          rw [fioWriteLoop_cons_none_done name sn rest (q + 1) n0 (Nat.succ_ne_zero q)] at h
          obtain ⟨_, h2⟩ := Prod.mk.injEq .. ▸ Option.some.injEq .. ▸ h
          obtain he2 := Option.some.injEq .. ▸ h2
          rw [← he2]; rfl
        | false =>
          rw [fioWriteLoop_cons_none_pending name sn rest (q + 1) n0 (Nat.succ_ne_zero q)] at h
          exact ih _ _ _ _ h
      | some e0 =>
        by_cases he : isEAGAIN e0 = true
        · cases sdone with
          | true =>
            rw [fioWriteLoop_cons_eagain_done name e0 sn rest (q + 1) n0
              (Nat.succ_ne_zero q) he] at h
            obtain ⟨_, h2⟩ := Prod.mk.injEq .. ▸ Option.some.injEq .. ▸ h
            obtain he2 := Option.some.injEq .. ▸ h2
            rw [← he2]; rfl
          | false =>
            rw [fioWriteLoop_cons_eagain_pending name e0 sn rest (q + 1) n0
              (Nat.succ_ne_zero q) he] at h
            exact ih _ _ _ _ h
        · rw [fioWriteLoop_cons_noneagain name e0 sn sdone rest (q + 1) n0
            (Nat.succ_ne_zero q) (by simpa using he)] at h
          obtain ⟨_, h2⟩ := Prod.mk.injEq .. ▸ Option.some.injEq .. ▸ h
          obtain he2 := Option.some.injEq .. ▸ h2
          rw [← he2, isEAGAIN_rewriteEINTR]
          simpa using he

theorem fioWriteLoop_accounting (name : String) :
    ∀ (steps : List RawStep) (p n0 r : Nat) (e : Option GoError),
      fioWriteLoop name steps p n0 = some (r, e) →
      ∃ k, r = n0 + ((steps.take k).map RawStep.n).sum := by
  intro steps
  induction steps with
  | nil =>
    intro p n0 r e h
    cases p with
    | zero =>
      rw [fioWriteLoop_zero_p] at h
      obtain ⟨h1, _⟩ := Prod.mk.injEq .. ▸ Option.some.injEq .. ▸ h
      exact ⟨0, by simp [← h1]⟩
    | succ q => simp [fioWriteLoop] at h
  | cons s rest ih =>
    intro p n0 r e h
    cases p with
    | zero =>
      rw [fioWriteLoop_zero_p] at h
      obtain ⟨h1, _⟩ := Prod.mk.injEq .. ▸ Option.some.injEq .. ▸ h
      exact ⟨0, by simp [← h1]⟩
    | succ q =>
      obtain ⟨sn, serr, sdone⟩ := s
      have hstep : ∀ r2 e2, fioWriteLoop name rest (q + 1 - sn) (n0 + sn) = some (r2, e2) →
          ∃ k, r2 = n0 + ((((⟨sn, serr, sdone⟩ : RawStep) :: rest).take k).map RawStep.n).sum := by
        intro r2 e2 h2
        obtain ⟨k, hk⟩ := ih (q + 1 - sn) (n0 + sn) r2 e2 h2
        refine ⟨k + 1, ?_⟩
        rw [List.take_succ_cons, List.map_cons, List.sum_cons, hk]
        simp
        omega
      have hnow : ∃ k, n0 + sn
          = n0 + ((((⟨sn, serr, sdone⟩ : RawStep) :: rest).take k).map RawStep.n).sum := by
        refine ⟨1, ?_⟩
        simp
      cases serr with
      | none =>
        cases sdone with
        | true =>
          rw [fioWriteLoop_cons_none_done name sn rest (q + 1) n0 (Nat.succ_ne_zero q)] at h
          obtain ⟨h1, _⟩ := Prod.mk.injEq .. ▸ Option.some.injEq .. ▸ h
          exact h1 ▸ hnow
        | false =>
          rw [fioWriteLoop_cons_none_pending name sn rest (q + 1) n0 (Nat.succ_ne_zero q)] at h
          exact hstep r e h
      | some e0 =>
        by_cases he : isEAGAIN e0 = true
        · cases sdone with
          | true =>
            rw [fioWriteLoop_cons_eagain_done name e0 sn rest (q + 1) n0
              (Nat.succ_ne_zero q) he] at h
            obtain ⟨h1, _⟩ := Prod.mk.injEq .. ▸ Option.some.injEq .. ▸ h
            exact h1 ▸ hnow
          | false =>
            rw [fioWriteLoop_cons_eagain_pending name e0 sn rest (q + 1) n0
              (Nat.succ_ne_zero q) he] at h
            exact hstep r e h
        · rw [fioWriteLoop_cons_noneagain name e0 sn sdone rest (q + 1) n0
            (Nat.succ_ne_zero q) (by simpa using he)] at h
          obtain ⟨h1, _⟩ := Prod.mk.injEq .. ▸ Option.some.injEq .. ▸ h
          exact h1 ▸ hnow

theorem fioRead_eagain_prefix_cancel (name op path : String) (rest : List RawStep) :
    ∀ (pre : List RawStep),
      (∀ s ∈ pre, s = RawStep.mk 0 (some (.pathError op path .EAGAIN)) false) →
      fioRead name (pre ++ RawStep.mk 0 (some (.pathError op path .EAGAIN)) true :: rest)
        = some (0, some (cancelErr "write" name)) := by
  intro pre
  induction pre with
  | nil =>
    intro _
    rw [List.nil_append]
    exact fioRead_cons_eagain_done name (.pathError op path .EAGAIN) rest rfl
  | cons s pre2 ih =>
    intro hpre
    have hs : s = RawStep.mk 0 (some (.pathError op path .EAGAIN)) false :=
      hpre s (List.mem_cons_self _ _)
    subst hs
    rw [List.cons_append,
      fioRead_cons_eagain_pending name (.pathError op path .EAGAIN) _ rfl]
    exact ih (fun s hs => hpre s (List.mem_cons_of_mem _ hs))

theorem eventTrace_bracketed (k : Nat) :
    (Event.scopeOpen :: (List.replicate k .rawCall ++ [.scopeRelease])).head?
        = some .scopeOpen
    ∧ (Event.scopeOpen :: (List.replicate k .rawCall ++ [.scopeRelease])).getLast?
        = some .scopeRelease := by
  refine ⟨rfl, ?_⟩
  rw [show Event.scopeOpen :: (List.replicate k .rawCall ++ [.scopeRelease])
      = (Event.scopeOpen :: List.replicate k .rawCall) ++ [.scopeRelease] from rfl]
  exact List.getLast?_concat _

/-! Claim theorems. -/

/-- C1, counterexample.  The claim says an EINTR result with the token still
pending is treated as spurious and the raw syscall is issued again with no
error returned.  On the code it is not: with `ctxDone = false` throughout
and a successful raw read waiting right behind the interrupted attempt,
`fio.Read` still returns at the first attempt, with the cause rewritten to
the cancellation error — it does not behave like a retry (which would
return the 5 bytes of the second attempt with no error). -/
theorem read_eintr_pending_token_cex :
    fioRead "f" [⟨0, some (.pathError "read" "f" .EINTR), false⟩, ⟨5, none, false⟩]
        = some (0, some (.pathError "read" "f" .canceled))
    ∧ fioRead "f" [⟨0, some (.pathError "read" "f" .EINTR), false⟩, ⟨5, none, false⟩]
        ≠ fioRead "f" [⟨5, none, false⟩] := by decide

/-- C1, amended.  On an EINTR result `fio.Read` and `fio.Write` return
immediately — whether or not the token is done — with the error cause
rewritten in place to the canonical cancellation error; an interruption is
never treated as spurious and never retried.  Only would-block results are
retried. -/
theorem eintr_returns_canceled_unconditionally :
    (∀ (name op path : String) (n : Nat) (b : Bool) (rest : List RawStep),
      fioRead name (⟨n, some (.pathError op path .EINTR), b⟩ :: rest)
        = some (n, some (.pathError op path .canceled)))
    ∧ (∀ (name op path : String) (sn : Nat) (b : Bool) (rest : List RawStep) (p n : Nat),
      p ≠ 0 →
      fioWriteLoop name (⟨sn, some (.pathError op path .EINTR), b⟩ :: rest) p n
        = some (n + sn, some (.pathError op path .canceled))) := by
  constructor
  · intro name op path n b rest
    rw [fioRead_cons_noneagain name (.pathError op path .EINTR) n b rest rfl]
    rfl
  · intro name op path sn b rest p n hp
    rw [fioWriteLoop_cons_noneagain name (.pathError op path .EINTR) sn b rest p n hp rfl]
    rfl

/-- C1, witness for the amended theorem. -/
theorem eintr_returns_canceled_unconditionally_witness :
    fioWriteLoop "f" [⟨0, some (.pathError "write" "f" .EINTR), false⟩] 4 0
      = some (0, some (.pathError "write" "f" .canceled)) :=
  eintr_returns_canceled_unconditionally.2 "f" "write" "f" 0 false [] 4 0 (by decide)

/-- C2.  A genuine cancellation discovered by the between-retries token
check of `fio.Read` is reported with operation name "write", not "read":
the `os.PathError` literal at src/fs.go line 263 hard-codes `Op: "write"`
inside `Read`.  Here a read sees a would-block result with the token done
and gets back a cancellation error naming the wrong operation. -/
theorem read_cancel_reports_write_op :
    fioRead "myfile" [⟨0, some (.pathError "read" "myfile" .EAGAIN), true⟩]
      = some (0, some (.pathError "write" "myfile" .canceled))
    ∧ ("write" : String) ≠ "read" := by decide

/-- C3.  `fio.Write` accumulates partial progress: (i) any returned byte
count equals the sum of the chunk sizes the kernel accepted over the
executed iterations; (ii) a write of N bytes whose first chunk of size a
(0 < a < N) is accepted and which is then cancelled returns exactly
(a, cancellation error) with a different from 0 and from N; (iii) a write
the kernel accepts in chunks of sizes a then b returns a + b with no
error; (iv) after a chunk, only the remaining unwritten tail is retried. -/
theorem write_partial_progress_accounting :
    (∀ (name : String) (steps : List RawStep) (p n0 r : Nat) (e : Option GoError),
      fioWriteLoop name steps p n0 = some (r, e) →
      ∃ k, r = n0 + (((steps.take k).map RawStep.n).sum))
    ∧ (∀ (name : String) (a N : Nat) (rest : List RawStep), 0 < a → a < N →
      fioWrite name
          (⟨a, none, false⟩ :: ⟨0, some (.pathError "write" name .EAGAIN), true⟩ :: rest) N
        = some (a, some (cancelErr "write" name)) ∧ a ≠ 0 ∧ a ≠ N)
    ∧ (∀ (name : String) (a b : Nat),
      fioWrite name [⟨a, none, false⟩, ⟨b, none, false⟩] (a + b) = some (a + b, none))
    ∧ (∀ (name : String) (sn : Nat) (rest : List RawStep) (p n : Nat), p ≠ 0 →
      fioWriteLoop name (⟨sn, none, false⟩ :: rest) p n
        = fioWriteLoop name rest (p - sn) (n + sn)) := by
  refine ⟨fioWriteLoop_accounting, ?_, ?_, fioWriteLoop_cons_none_pending⟩
  · intro name a N rest ha haN
    refine ⟨?_, by omega, by omega⟩
    unfold fioWrite
    rw [fioWriteLoop_cons_none_pending name a _ N 0 (by omega)]
    rw [fioWriteLoop_cons_eagain_done name (.pathError "write" name .EAGAIN) 0 rest (N - a)
      (0 + a) (by omega) rfl]
    norm_num
  · intro name a b
    unfold fioWrite
    by_cases hab : a + b = 0
    · have haz : a = 0 := by omega
      have hbz : b = 0 := by omega
      subst haz; subst hbz
      rw [fioWriteLoop_zero_p]
    · rw [fioWriteLoop_cons_none_pending name a _ (a + b) 0 hab]
      have hrem : a + b - a = b := by omega
      rw [hrem]
      by_cases hb : b = 0
      · subst hb
        rw [fioWriteLoop_zero_p]
        norm_num
      · rw [fioWriteLoop_cons_none_pending name b [] b (0 + a) hb]
        have hbb : b - b = 0 := by omega
        rw [hbb, fioWriteLoop_zero_p]
        have : 0 + a + b = a + b := by omega
        rw [this]

/-- C3, witness: a 7-byte write accepted as a 3-byte chunk and then
cancelled returns count 3 with the cancellation error, and 3 is neither 0
nor 7. -/
theorem write_partial_progress_accounting_witness :
    (fioWrite "f" [⟨3, none, false⟩, ⟨0, some (.pathError "write" "f" .EAGAIN), true⟩] 7
      = some (3, some (cancelErr "write" "f")) ∧ 3 ≠ 0 ∧ 3 ≠ 7) :=
  write_partial_progress_accounting.2.1 "f" 3 7 [] (by decide) (by decide)

/-- C4.  `fio.Read` never returns a zero byte count with no error: a
no-error return has a positive count; a zero-byte success with the token
pending loops to the next raw attempt; a zero-byte success with the token
done returns a cancellation error. -/
theorem read_never_zero_without_error :
    (∀ (name : String) (steps : List RawStep) (n : Nat),
      fioRead name steps = some (n, none) → 0 < n)
    ∧ (∀ (name : String) (rest : List RawStep),
      fioRead name (⟨0, none, false⟩ :: rest) = fioRead name rest)
    ∧ (∀ (name : String) (rest : List RawStep),
      fioRead name (⟨0, none, true⟩ :: rest)
        = some (0, some (cancelErr "write" name))) :=
  ⟨fioRead_pos_of_none, fioRead_cons_zero_pending, fioRead_cons_zero_done⟩

/-- C4, witness: applying the theorem at a concrete trace in which the
first attempt reads zero bytes and the second reads 2 bytes. -/
theorem read_never_zero_without_error_witness : 0 < 2 :=
  read_never_zero_without_error.1 "f" [⟨0, none, false⟩, ⟨2, none, false⟩] 2 (by decide)

/-- C5.  Would-block results are retried silently and never surfaced:
(i) a would-block read attempt with the token pending just loops; (ii) so
does a would-block write attempt, on the remaining tail; (iii) a read
never returns a would-block error provided would-block attempts deliver
zero bytes (as POSIX guarantees); (iv) a write never returns a would-block
error, unconditionally; (v) a read spinning on would-block returns a
cancellation error at the first iteration that observes the token done,
however many would-block iterations preceded it; (vi) likewise a single
would-block write attempt with the token done returns the cancellation
error at once. -/
theorem wouldblock_silent_cancel_prompt :
    (∀ (name op path : String) (rest : List RawStep),
      fioRead name (⟨0, some (.pathError op path .EAGAIN), false⟩ :: rest)
        = fioRead name rest)
    ∧ (∀ (name op path : String) (sn : Nat) (rest : List RawStep) (p n : Nat), p ≠ 0 →
      fioWriteLoop name (⟨sn, some (.pathError op path .EAGAIN), false⟩ :: rest) p n
        = fioWriteLoop name rest (p - sn) (n + sn))
    ∧ (∀ (name : String) (steps : List RawStep) (n : Nat) (e : GoError),
      (∀ s ∈ steps, ∀ e0, s.err = some e0 → isEAGAIN e0 = true → s.n = 0) →
      fioRead name steps = some (n, some e) → isEAGAIN e = false)
    ∧ (∀ (name : String) (steps : List RawStep) (p n0 r : Nat) (e : GoError),
      fioWriteLoop name steps p n0 = some (r, some e) → isEAGAIN e = false)
    ∧ (∀ (name op path : String) (rest : List RawStep) (pre : List RawStep),
      (∀ s ∈ pre, s = RawStep.mk 0 (some (.pathError op path .EAGAIN)) false) →
      fioRead name (pre ++ RawStep.mk 0 (some (.pathError op path .EAGAIN)) true :: rest)
        = some (0, some (cancelErr "write" name)))
    ∧ (∀ (name op path : String) (sn : Nat) (rest : List RawStep) (p n : Nat), p ≠ 0 →
      fioWriteLoop name (⟨sn, some (.pathError op path .EAGAIN), true⟩ :: rest) p n
        = some (n + sn, some (cancelErr "write" name))) := by
  refine ⟨?_, ?_, fioRead_surfaced_not_eagain, fioWriteLoop_surfaced_not_eagain,
    ?_, ?_⟩
  · intro name op path rest
    exact fioRead_cons_eagain_pending name (.pathError op path .EAGAIN) rest rfl
  · intro name op path sn rest p n hp
    exact fioWriteLoop_cons_eagain_pending name (.pathError op path .EAGAIN) sn rest p n hp rfl
  · intro name op path rest pre hpre
    exact fioRead_eagain_prefix_cancel name op path rest pre hpre
  · intro name op path sn rest p n hp
    exact fioWriteLoop_cons_eagain_done name (.pathError op path .EAGAIN) sn rest p n hp rfl

/-- C5, witness: two would-block read attempts with the token pending
followed by one with the token done return the cancellation error. -/
theorem wouldblock_silent_cancel_prompt_witness :
    fioRead "f"
        ([RawStep.mk 0 (some (.pathError "read" "f" .EAGAIN)) false,
          RawStep.mk 0 (some (.pathError "read" "f" .EAGAIN)) false]
          ++ RawStep.mk 0 (some (.pathError "read" "f" .EAGAIN)) true :: [])
      = some (0, some (cancelErr "write" "f")) :=
  wouldblock_silent_cancel_prompt.2.2.2.2.1 "f" "read" "f" []
    [RawStep.mk 0 (some (.pathError "read" "f" .EAGAIN)) false,
     RawStep.mk 0 (some (.pathError "read" "f" .EAGAIN)) false]
    (by decide)

/-- C6, counterexample.  The claim says all five operations classify the
raw error using the §7 scheme, retrying would-block results.  `fio.Seek`
does not: a would-block outcome of the single raw `Seek` call is returned
to the caller unchanged — surfaced, not retried. -/
theorem seek_surfaces_wouldblock_cex :
    (fioSeek (0, some (.pathError "seek" "f" .EAGAIN))).2
      = (0, some (.pathError "seek" "f" .EAGAIN))
    ∧ isEAGAIN (.pathError "seek" "f" .EAGAIN) = true := by decide

/-- C6, amended.  Every one of the five operations opens the interrupt
scope on entry and the deferred release runs at every return, so each
terminating call's event trace starts with the scope open and ends with
the scope release; but only read and write run a classification loop (and
they retry only would-block — see the C1 theorems for interruptions);
seek, read-at-offset and close issue a single raw call and pass its
outcome through unchanged. -/
theorem scope_bracketing_and_classification :
    (∀ raw, fioSeek raw = ([.scopeOpen, .rawCall, .scopeRelease], raw))
    ∧ (∀ raw, fioReadAt raw = ([.scopeOpen, .rawCall, .scopeRelease], raw))
    ∧ (∀ raw, fioClose raw = ([.scopeOpen, .rawCall, .scopeRelease], raw))
    ∧ (∀ (name : String) (steps : List RawStep) (ev : List Event),
      fioReadEvents name steps = some ev →
      ev.head? = some .scopeOpen ∧ ev.getLast? = some .scopeRelease)
    ∧ (∀ (name : String) (steps : List RawStep) (bufLen : Nat) (ev : List Event),
      fioWriteEvents name steps bufLen = some ev →
      ev.head? = some .scopeOpen ∧ ev.getLast? = some .scopeRelease)
    ∧ (∀ (name op path : String) (rest : List RawStep),
      fioRead name (⟨0, some (.pathError op path .EAGAIN), false⟩ :: rest)
        = fioRead name rest) := by
  refine ⟨fun _ => rfl, fun _ => rfl, fun _ => rfl, ?_, ?_, ?_⟩
  · intro name steps ev hev
    unfold fioReadEvents at hev
    cases hcalls : fioReadCalls name steps with
    | none => rw [hcalls] at hev; simp at hev
    | some k =>
      rw [hcalls] at hev
      rw [Option.map_some'] at hev
      obtain hev2 := Option.some.injEq .. ▸ hev
      rw [← hev2]
      exact eventTrace_bracketed k
  · intro name steps bufLen ev hev
    unfold fioWriteEvents at hev
    cases hcalls : fioWriteCalls name steps bufLen with
    | none => rw [hcalls] at hev; simp at hev
    | some k =>
      rw [hcalls] at hev
      rw [Option.map_some'] at hev
      obtain hev2 := Option.some.injEq .. ▸ hev
      rw [← hev2]
      exact eventTrace_bracketed k
  · intro name op path rest
    exact fioRead_cons_eagain_pending name (.pathError op path .EAGAIN) rest rfl

/-- C6, witness for the amended theorem: the event trace of a read that
succeeds at its first raw attempt. -/
theorem scope_bracketing_and_classification_witness :
    ([Event.scopeOpen, Event.rawCall, Event.scopeRelease].head? = some Event.scopeOpen
    ∧ [Event.scopeOpen, Event.rawCall, Event.scopeRelease].getLast?
        = some Event.scopeRelease) :=
  scope_bracketing_and_classification.2.2.2.1 "f" [⟨1, none, false⟩]
    [Event.scopeOpen, Event.rawCall, Event.scopeRelease] (by decide)

/-- C7.  Any raw error other than a would-block or interrupted
`os.PathError` — another errno inside an `os.PathError`, or a
non-PathError error such as `io.EOF` — is returned by `fio.Read` and
`fio.Write` at the very iteration it occurs, unchanged. -/
theorem fatal_passthrough_unretried :
    (∀ (name op path : String) (e : Errno) (n : Nat) (b : Bool) (rest : List RawStep),
      e ≠ Errno.EAGAIN → e ≠ Errno.EINTR →
      fioRead name (⟨n, some (.pathError op path e), b⟩ :: rest)
        = some (n, some (.pathError op path e)))
    ∧ (∀ (name : String) (code n : Nat) (b : Bool) (rest : List RawStep),
      fioRead name (⟨n, some (.nonPath code), b⟩ :: rest)
        = some (n, some (.nonPath code)))
    ∧ (∀ (name op path : String) (e : Errno) (sn : Nat) (b : Bool) (rest : List RawStep)
        (p n : Nat), p ≠ 0 → e ≠ Errno.EAGAIN → e ≠ Errno.EINTR →
      fioWriteLoop name (⟨sn, some (.pathError op path e), b⟩ :: rest) p n
        = some (n + sn, some (.pathError op path e)))
    ∧ (∀ (name : String) (code sn : Nat) (b : Bool) (rest : List RawStep) (p n : Nat),
      p ≠ 0 →
      fioWriteLoop name (⟨sn, some (.nonPath code), b⟩ :: rest) p n
        = some (n + sn, some (.nonPath code))) := by
  refine ⟨?_, ?_, ?_, ?_⟩
  · intro name op path e n b rest hea hei
    rw [fioRead_cons_noneagain name (.pathError op path e) n b rest (by simp [isEAGAIN, hea])]
    simp [rewriteEINTR, hei]
  · intro name code n b rest
    rw [fioRead_cons_noneagain name (.nonPath code) n b rest rfl]
    rfl
  · intro name op path e sn b rest p n hp hea hei
    rw [fioWriteLoop_cons_noneagain name (.pathError op path e) sn b rest p n hp
      (by simp [isEAGAIN, hea])]
    simp [rewriteEINTR, hei]
  · intro name code sn b rest p n hp
    rw [fioWriteLoop_cons_noneagain name (.nonPath code) sn b rest p n hp rfl]
    rfl

/-- C7, witness: a permission-denied (errno 13) raw read error is passed
through unchanged. -/
theorem fatal_passthrough_unretried_witness :
    fioRead "f" [⟨0, some (.pathError "read" "f" (.other 13)), false⟩]
      = some (0, some (.pathError "read" "f" (.other 13))) :=
  fatal_passthrough_unretried.1 "f" "read" "f" (.other 13) 0 false []
    (by decide) (by decide)

/-- C8, counterexample.  The claim says the completion channel of every
interrupt scope has capacity at least 1 so the release send can never
block.  The `interrupt` revision at src/unnamed/part_002 line 14 makes the
`done` channel unbuffered: its capacity is 0, and when the watcher already
exited through the token branch, the release's send on it blocks. -/
theorem part002_unbuffered_send_blocks_cex :
    part002DoneCap = 0 ∧ ¬ 1 ≤ part002DoneCap
    ∧ sendBlocks part002DoneCap 0 WatcherState.exited = true := by decide

/-- C8, amended.  The completion channels made by `interrupt` in
src/interrupt.go (line 39) and in src/unnamed/part_001 (line 34) are
buffered with capacity 1, so with an empty buffer the release's send never
blocks, whatever state the watcher is in; the historical revision in
src/unnamed/part_002 uses an unbuffered channel whose release send blocks
when the watcher has already exited. -/
theorem interrupt_done_channel_buffered :
    1 ≤ interruptDoneCap ∧ 1 ≤ part001DoneCap
    ∧ (∀ w : WatcherState, sendBlocks interruptDoneCap 0 w = false)
    ∧ (∀ w : WatcherState, sendBlocks part001DoneCap 0 w = false) := by
  refine ⟨Nat.le_refl 1, Nat.le_refl 1, ?_, ?_⟩ <;> intro w <;> cases w <;> rfl

/-- C9.  The claim says no logging or printing happens inside the
installed signal handler or in the watcher's signal-send path.  On the
code both happen: `mysighandler` (src/interrupt.go lines 26-29) calls
`println`, and the watcher's `threadKill` (src/interrupt_darwin.go lines
16-24) calls `log.Printf` whenever the kill syscall reports an errno (for
instance errno 3, ESRCH, when the target thread already finished). -/
theorem handler_and_watcher_log_effects :
    Effect.printCall "mysighandler" ∈ mysighandler 7
    ∧ Effect.logCall "threadKill error" ∈ watcherOnTokenDone 7 3 := by decide

/-- C10.  `Pipe` never observes its cancellation token: with any two
tokens (one may already be done) and the same underlying OS pipe outcome,
the results are identical, and the result is exactly the OS outcome — no
cancellation error is ever injected. -/
theorem pipe_ignores_token :
    (∀ (t1 t2 : CancellationToken) (osPipe : Except GoError (Nat × Nat)),
      Pipe t1 osPipe = Pipe t2 osPipe)
    ∧ (∀ (t : CancellationToken) (osPipe : Except GoError (Nat × Nat)),
      Pipe t osPipe = osPipe) := by
  constructor
  · intro t1 t2 osPipe; cases osPipe <;> rfl
  · intro t osPipe; cases osPipe <;> rfl

end Fs
